import Mathlib

/-!
Verification development for the walioss transfer execution engine.

Shallow embedding of the Go core (transfer limiter, progress-line parser,
CR/LF output splitter, diagnostic ring buffer, progress aggregation, binary
fallback policy, and enqueue validation), with theorems checking the
natural-language specification against the embedded code.

Conventions of the embedding:
- Go `int`/`int64` values are modelled as `Int` (with explicit 64-bit range
  checks where the source performs them, e.g. `strconv.ParseInt`).
- Go `float64` values appearing in the progress pipeline are modelled as `ℚ`;
  all numeric values exercised by the spec's examples are exactly
  representable in binary floating point, so the rational semantics agrees
  with the source on them.
- Byte strings flowing through the splitter/parser are modelled as
  `List Char`.
-/

namespace Walioss

/-! ## Concurrency limiter (transferLimiter, src/unnamed/part_000 lines 57-99)

The Go limiter guards `active`/`max` with one mutex; `Acquire` loops on a
condition variable until `active < max` and only then increments. We model
the observable sequential behaviour: a trace of operations, where a blocked
`Acquire` leaves the state unchanged (its increment happens, as in the
source, only from a state with `active < max`). -/

structure transferLimiter where
  active : Int
  max : Int
deriving DecidableEq, Repr

/-- `newTransferLimiter` (lines 64-71): clamps the capacity to at least 1. -/
def newTransferLimiter (m : Int) : transferLimiter :=
  { active := 0, max := if m < 1 then 1 else m }

inductive LimiterOp where
  | acquire
  | release
  | setMax (m : Int)
deriving DecidableEq, Repr

/-- One limiter operation:
`Acquire` (lines 73-80) increments only once `active < max`;
`Release` (lines 82-89) decrements only when `active > 0`;
`SetMax` (lines 91-99) clamps to at least 1 and assigns `max`. -/
def limiterStep (s : transferLimiter) : LimiterOp → transferLimiter
  | .acquire => if s.active < s.max then { s with active := s.active + 1 } else s
  | .release => if s.active > 0 then { s with active := s.active - 1 } else s
  | .setMax m => { s with max := if m < 1 then 1 else m }

def runLimiter (s : transferLimiter) (ops : List LimiterOp) : transferLimiter :=
  ops.foldl limiterStep s

/-- Side condition on a single operation: a `SetMax` does not lower the
(clamped) capacity below the current active count. -/
def setMaxKeepsActive (s : transferLimiter) : LimiterOp → Bool
  | .setMax m => s.active ≤ if m < 1 then 1 else m
  | _ => true

/-- A run in which every `SetMax`, at the moment it is applied, keeps the
clamped capacity at or above the active count. -/
def noLoweringRun (s : transferLimiter) : List LimiterOp → Bool
  | [] => true
  | op :: ops => setMaxKeepsActive s op && noLoweringRun (limiterStep s op) ops

def limiterInv (s : transferLimiter) : Prop :=
  0 ≤ s.active ∧ s.active ≤ s.max ∧ 1 ≤ s.max

theorem limiterStep_inv (s : transferLimiter) (op : LimiterOp)
    (hs : limiterInv s) (hop : setMaxKeepsActive s op = true) :
    limiterInv (limiterStep s op) := by
  obtain ⟨h0, hm, h1⟩ := hs
  cases op with
  | acquire =>
    simp only [limiterStep, limiterInv]
    split <;> (try simp only []) <;> omega
  | release =>
    simp only [limiterStep, limiterInv]
    split <;> (try simp only []) <;> omega
  | setMax m =>
    simp only [setMaxKeepsActive, decide_eq_true_eq] at hop
    simp only [limiterStep, limiterInv]
    try simp only []
    split at hop <;> split <;> omega

theorem runLimiter_inv (s : transferLimiter) (ops : List LimiterOp)
    (hs : limiterInv s) (hops : noLoweringRun s ops = true) :
    limiterInv (runLimiter s ops) := by
  induction ops generalizing s with
  | nil => exact hs
  | cons op ops ih =>
    simp only [noLoweringRun, Bool.and_eq_true] at hops
    exact ih (limiterStep s op) (limiterStep_inv s op hs hops.1) hops.2

theorem limiterStep_active_nonneg (s : transferLimiter) (op : LimiterOp)
    (h : 0 ≤ s.active) : 0 ≤ (limiterStep s op).active := by
  cases op with
  | acquire => simp only [limiterStep]; split <;> (try simp only []) <;> omega
  | release => simp only [limiterStep]; split <;> (try simp only []) <;> omega
  | setMax m => simp only [limiterStep]; exact h

/-! ## Diagnostic ring buffer (ringBuffer, src/unnamed/part_000 lines 321-359) -/

structure ringBuffer where
  data : List Char
  cap : Nat
deriving DecidableEq, Repr

/-- `newRingBuffer` (lines 327-332): clamps the capacity to at least 1. -/
def newRingBuffer (capacity : Int) : ringBuffer :=
  { data := [], cap := if capacity < 1 then 1 else capacity.toNat }

/-- The bytes actually appended for a call `AppendLine line`: nothing for an
empty line, otherwise the line, newline-terminated if it was not already. -/
def rawOfLine (line : List Char) : List Char :=
  if line = [] then []
  else if line.getLast? = some '\n' then line else line ++ ['\n']

/-- `ringBuffer.AppendLine` (lines 334-353). -/
def ringBuffer.AppendLine (b : ringBuffer) (line : List Char) : ringBuffer :=
  if line = [] then b
  else
    let raw := rawOfLine line
    if b.cap ≤ raw.length then
      { b with data := raw.drop (raw.length - b.cap) }
    else if b.cap < b.data.length + raw.length then
      { b with data := (b.data.drop (b.data.length + raw.length - b.cap)) ++ raw }
    else
      { b with data := b.data ++ raw }

def runRingBuffer (b : ringBuffer) (lines : List (List Char)) : ringBuffer :=
  lines.foldl ringBuffer.AppendLine b

theorem newTransferLimiter_inv (m : Int) : limiterInv (newTransferLimiter m) := by
  simp only [limiterInv, newTransferLimiter]
  try simp only []
  split <;> omega

theorem runLimiter_active_nonneg (s : transferLimiter) (ops : List LimiterOp)
    (h : 0 ≤ s.active) : 0 ≤ (runLimiter s ops).active := by
  induction ops generalizing s with
  | nil => exact h
  | cons op ops ih => exact ih (limiterStep s op) (limiterStep_active_nonneg s op h)

/-- C1 (counterexample): the claim that `active ≤ max` survives every
`SetMax`, including ones that lower the capacity while jobs hold slots, is
false on the code: after `Acquire, Acquire, SetMax 1` from a limiter of
capacity 2 the state has `active = 2 > 1 = max`, because `SetMax` only
clamps and stores the new capacity without touching `active`. -/
theorem limiter_active_can_exceed_max_after_setmax :
    (runLimiter (newTransferLimiter 2)
      [LimiterOp.acquire, LimiterOp.acquire, LimiterOp.setMax 1]).active = 2
  ∧ (runLimiter (newTransferLimiter 2)
      [LimiterOp.acquire, LimiterOp.acquire, LimiterOp.setMax 1]).max = 1
  ∧ ¬ (runLimiter (newTransferLimiter 2)
      [LimiterOp.acquire, LimiterOp.acquire, LimiterOp.setMax 1]).active
      ≤ (runLimiter (newTransferLimiter 2)
      [LimiterOp.acquire, LimiterOp.acquire, LimiterOp.setMax 1]).max := by
  decide

/-- C1 (amended): for every sequence of `Acquire`/`Release`/`SetMax` calls in
which each `SetMax`, at the moment it is applied, does not lower the clamped
capacity below the current active count, the limiter satisfies
`0 ≤ active ≤ max` and `max ≥ 1` (at every point: every prefix of such a
sequence again satisfies the side condition, so instantiating the theorem at
the prefix gives the invariant there). -/
theorem limiter_inv_of_noLoweringRun (m : Int) (ops : List LimiterOp)
    (h : noLoweringRun (newTransferLimiter m) ops = true) :
    limiterInv (runLimiter (newTransferLimiter m) ops) :=
  runLimiter_inv (newTransferLimiter m) ops (newTransferLimiter_inv m) h

theorem limiter_inv_of_noLoweringRun_witness :
    noLoweringRun (newTransferLimiter 2)
      [LimiterOp.acquire, LimiterOp.release, LimiterOp.setMax 1, LimiterOp.acquire] = true
  ∧ limiterInv (runLimiter (newTransferLimiter 2)
      [LimiterOp.acquire, LimiterOp.release, LimiterOp.setMax 1, LimiterOp.acquire]) :=
  ⟨by decide,
   limiter_inv_of_noLoweringRun 2
     [LimiterOp.acquire, LimiterOp.release, LimiterOp.setMax 1, LimiterOp.acquire]
     (by decide)⟩

/-- C9: `active` never becomes negative, for any operation sequence starting
from a fresh limiter — including `Release` calls with no matching `Acquire` —
because `Release` (lines 82-89) only decrements when `active > 0`; a
`Release` at `active = 0` leaves the state unchanged. -/
theorem release_never_negative :
    (∀ (m : Int) (ops : List LimiterOp),
      0 ≤ (runLimiter (newTransferLimiter m) ops).active)
  ∧ (∀ s : transferLimiter, s.active = 0 → limiterStep s LimiterOp.release = s) := by
  constructor
  · intro m ops
    refine runLimiter_active_nonneg (newTransferLimiter m) ops ?_
    simp [newTransferLimiter]
  · intro s h
    simp only [limiterStep, h]
    norm_num

theorem release_never_negative_witness :
    0 ≤ (runLimiter (newTransferLimiter 1) [LimiterOp.release]).active
  ∧ limiterStep { active := 0, max := 5 } LimiterOp.release
      = { active := 0, max := 5 } :=
  ⟨release_never_negative.1 1 [LimiterOp.release],
   release_never_negative.2 { active := 0, max := 5 } rfl⟩

/-! ### Ring buffer invariants (C6) -/

theorem AppendLine_cap (b : ringBuffer) (line : List Char) :
    (ringBuffer.AppendLine b line).cap = b.cap := by
  simp only [ringBuffer.AppendLine]
  split
  · rfl
  · split
    · rfl
    · split <;> rfl

theorem AppendLine_length_le (b : ringBuffer) (line : List Char)
    (h : b.data.length ≤ b.cap) :
    (ringBuffer.AppendLine b line).data.length ≤ (ringBuffer.AppendLine b line).cap := by
  rw [AppendLine_cap]
  simp only [ringBuffer.AppendLine]
  split
  · exact h
  · split
    · simp only [List.length_drop]
      omega
    · split
      · simp only [List.length_append, List.length_drop]
        omega
      · simp only [List.length_append]
        omega

theorem suffix_append_right {α : Type} {x y : List α} (h : x <:+ y) (z : List α) :
    x ++ z <:+ y ++ z := by
  obtain ⟨t, rfl⟩ := h
  exact ⟨t, (List.append_assoc t x z).symm⟩

theorem AppendLine_suffix (b : ringBuffer) (line : List Char) :
    (ringBuffer.AppendLine b line).data <:+ b.data ++ rawOfLine line := by
  simp only [ringBuffer.AppendLine]
  split
  · rename_i hl
    simp only [rawOfLine, if_pos hl, List.append_nil]
    exact List.suffix_refl b.data
  · split
    · exact (List.drop_suffix _ _).trans (List.suffix_append _ _)
    · split
      · exact suffix_append_right (List.drop_suffix _ _) _
      · exact List.suffix_refl _

theorem runRingBuffer_suffix (b : ringBuffer) (lines : List (List Char)) :
    (runRingBuffer b lines).data <:+ b.data ++ (lines.map rawOfLine).flatten := by
  induction lines generalizing b with
  | nil => simp only [runRingBuffer, List.foldl_nil, List.map_nil, List.flatten_nil,
      List.append_nil]
           exact List.suffix_refl b.data
  | cons l ls ih =>
    have h1 : (runRingBuffer b (l :: ls)).data
        <:+ (ringBuffer.AppendLine b l).data ++ (ls.map rawOfLine).flatten :=
      ih (ringBuffer.AppendLine b l)
    have h2 : (ringBuffer.AppendLine b l).data ++ (ls.map rawOfLine).flatten
        <:+ (b.data ++ rawOfLine l) ++ (ls.map rawOfLine).flatten :=
      suffix_append_right (AppendLine_suffix b l) _
    have h3 := h1.trans h2
    simpa [List.append_assoc] using h3

theorem runRingBuffer_length_le (b : ringBuffer) (lines : List (List Char))
    (h : b.data.length ≤ b.cap) :
    (runRingBuffer b lines).data.length ≤ (runRingBuffer b lines).cap := by
  induction lines generalizing b with
  | nil => exact h
  | cons l ls ih =>
    exact ih (ringBuffer.AppendLine b l) (AppendLine_length_le b l h)

/-- C6: for every sequence of `AppendLine` calls on a fresh ring buffer,
(1) the retained content never exceeds the configured (clamped) capacity,
(2) the content is always a suffix of the concatenation of everything
appended so far (each non-empty line newline-terminated before appending),
(3) when a single appended line alone meets or exceeds capacity, exactly the
fitting suffix of that line is retained, and
(4) otherwise oldest bytes are evicted from the front until the new line
fits (the drop count being 0 when it already fits). -/
theorem ringBuffer_retention (c : Int) (lines : List (List Char)) :
    (runRingBuffer (newRingBuffer c) lines).data.length
      ≤ (runRingBuffer (newRingBuffer c) lines).cap
  ∧ (runRingBuffer (newRingBuffer c) lines).data <:+ (lines.map rawOfLine).flatten
  ∧ (∀ (b : ringBuffer) (line : List Char), line ≠ [] →
      b.cap ≤ (rawOfLine line).length →
      (ringBuffer.AppendLine b line).data
        = (rawOfLine line).drop ((rawOfLine line).length - b.cap))
  ∧ (∀ (b : ringBuffer) (line : List Char), line ≠ [] →
      (rawOfLine line).length < b.cap →
      (ringBuffer.AppendLine b line).data
        = b.data.drop (b.data.length + (rawOfLine line).length - b.cap)
            ++ rawOfLine line) := by
  refine ⟨runRingBuffer_length_le _ _ (by simp [newRingBuffer]),
    by simpa using runRingBuffer_suffix (newRingBuffer c) lines, ?_, ?_⟩
  · intro b line hne hcap
    simp only [ringBuffer.AppendLine, if_neg hne, if_pos hcap]
  · intro b line hne hcap
    simp only [ringBuffer.AppendLine, if_neg hne, if_neg (by omega : ¬ b.cap ≤ (rawOfLine line).length)]
    split
    · rfl
    · rename_i hfit
      have : b.data.length + (rawOfLine line).length - b.cap = 0 := by omega
      simp [this]

theorem ringBuffer_retention_witness :
    (ringBuffer.AppendLine { data := ['x'], cap := 3 } ['a', 'b', 'c']).data
      = (rawOfLine ['a', 'b', 'c']).drop 1
  ∧ (ringBuffer.AppendLine { data := ['x', 'y'], cap := 8 } ['a', 'b']).data
      = ['x', 'y'].drop 0 ++ rawOfLine ['a', 'b'] := by
  refine ⟨?_, ?_⟩
  · exact (ringBuffer_retention 1 []).2.2.1 { data := ['x'], cap := 3 }
      ['a', 'b', 'c'] (by decide) (by decide)
  · exact (ringBuffer_retention 1 []).2.2.2 { data := ['x', 'y'], cap := 8 }
      ['a', 'b'] (by decide) (by decide)

/-! ## String utilities

Go's `strings.TrimSpace` trims characters with the Unicode `White_Space`
property from both ends; `isGoSpace` lists that set. -/

def isGoSpace (c : Char) : Bool :=
  c == ' ' || c == '\t' || c == '\n' || c == '\x0b' || c == '\x0c' || c == '\r' ||
  c == '\x85' || c == '\xa0' || c == '\u1680' ||
  (0x2000 ≤ c.toNat && c.toNat ≤ 0x200a) ||
  c == '\u2028' || c == '\u2029' || c == '\u202f' || c == '\u205f' || c == '\u3000'

/-- `strings.TrimSpace` on a character list. -/
def trimSpaceL (l : List Char) : List Char :=
  ((l.dropWhile isGoSpace).reverse.dropWhile isGoSpace).reverse

/-- `strings.TrimSpace` on a `String`. -/
def trimS (s : String) : String :=
  (trimSpaceL s.toList).asString

/-- `strings.TrimPrefix s "/"`. -/
def trimPrefixSlash (s : String) : String :=
  match s.toList with
  | '/' :: rest => rest.asString
  | _ => s

/-! ## ANSI escape stripping (reANSIEsc, src/unnamed/part_000 lines 218-223)

The pattern is: ESC, an open bracket, parameter bytes 0x30-0x3F repeated,
intermediate bytes 0x20-0x2F repeated, one final byte 0x40-0x7E. The three
classes are pairwise disjoint, so greedy matching needs no backtracking and
`ReplaceAllString` is a deterministic left-to-right scan. -/

def isAnsiParam (c : Char) : Bool := 0x30 ≤ c.toNat && c.toNat ≤ 0x3f

def isAnsiInter (c : Char) : Bool := 0x20 ≤ c.toNat && c.toNat ≤ 0x2f

def isAnsiFinal (c : Char) : Bool := 0x40 ≤ c.toNat && c.toNat ≤ 0x7e

/-- Match the escape-sequence pattern at the start of the input, returning
the remaining input on success. -/
def matchAnsiAt : List Char → Option (List Char)
  | '\x1b' :: '[' :: rest =>
    let r1 := rest.dropWhile isAnsiParam
    let r2 := r1.dropWhile isAnsiInter
    match r2 with
    | c :: rest2 => if isAnsiFinal c then some rest2 else none
    | [] => none
  | _ => none

/-- One fuelled scanning step of `ReplaceAllString(s, "")`: the fuel is an
upper bound on the input length, so it never runs out in `stripANSIList`. -/
def stripANSIAux : Nat → List Char → List Char
  | 0, l => l
  | _ + 1, [] => []
  | fuel + 1, c :: cs =>
    match matchAnsiAt (c :: cs) with
    | some rest => stripANSIAux fuel rest
    | none => c :: stripANSIAux fuel cs

/-- `stripANSI` (lines 221-223). -/
def stripANSIList (l : List Char) : List Char :=
  stripANSIAux l.length l

/-! ## Regex matching engine for the three progress patterns
(src/unnamed/part_000 lines 214-219)

Go's `regexp` package uses leftmost-first (Perl-style) submatch semantics.
The three patterns use only: case-insensitive literals, character classes
with greedy `*`/`+`, greedy `(?:...)?` groups, `\b`, `$`-alternation and
capturing groups, so a small backtracking matcher over an item list is an
exact embedding. Matching is fuelled; the fuel bounds the number of pattern
items walked through on one attempt (not input characters), and 1000 far
exceeds the expanded size of each pattern below. -/

inductive RItem where
  /-- one character from a class -/
  | cls (p : Char → Bool)
  /-- greedy `*` over a character class -/
  | star (p : Char → Bool)
  /-- greedy optional sequence `(?:...)?` -/
  | opt (items : List RItem)
  /-- case-insensitive literal, stored lowercase -/
  | lit (s : List Char)
  /-- word boundary `\b` (RE2: ASCII `\w` = `[0-9A-Za-z_]`) -/
  | wb
  /-- `(?:\b|$)` -/
  | wbOrEol
  /-- capturing group -/
  | group (n : Nat) (items : List RItem)

def isWordChar (c : Char) : Bool := c.isAlphanum || c == '_'

/-- Is there a word boundary between the already-consumed input (reversed in
`prev`) and the rest (`inp`)? -/
def wbAt (prev inp : List Char) : Bool :=
  let a := match prev with | [] => false | c :: _ => isWordChar c
  let b := match inp with | [] => false | c :: _ => isWordChar c
  a != b

/-- Consume a case-insensitive literal (pattern stored lowercase). -/
def litConsume : List Char → List Char → Option (List Char)
  | [], inp => some inp
  | _ :: _, [] => none
  | p :: ps, c :: cs => if c.toLower == p then litConsume ps cs else none

abbrev Caps := List (Nat × List Char)

/-- Backtracking matcher in continuation-passing style. `prev` is the
reversed already-consumed input (needed for `\b` and for capture
extraction); the continuation receives the updated `prev`, the remaining
input, and the captures gathered so far. -/
def matchItems : Nat → List RItem → List Char → List Char → Caps →
    (List Char → List Char → Caps → Option Caps) → Option Caps
  | 0, _, _, _, _, _ => none
  | _ + 1, [], prev, inp, caps, k => k prev inp caps
  | fuel + 1, item :: rest, prev, inp, caps, k =>
    match item with
    | .cls p =>
      match inp with
      | [] => none
      | c :: cs => if p c then matchItems fuel rest (c :: prev) cs caps k else none
    | .star p =>
      let maxTake := (inp.takeWhile p).length
      (List.range (maxTake + 1)).findSome? fun i =>
        let j := maxTake - i
        matchItems fuel rest ((inp.take j).reverse ++ prev) (inp.drop j) caps k
    | .opt items =>
      match matchItems fuel (items ++ rest) prev inp caps k with
      | some r => some r
      | none => matchItems fuel rest prev inp caps k
    | .lit s =>
      match litConsume s inp with
      | some remaining =>
        matchItems fuel rest ((inp.take s.length).reverse ++ prev) remaining caps k
      | none => none
    | .wb => if wbAt prev inp then matchItems fuel rest prev inp caps k else none
    | .wbOrEol =>
      if wbAt prev inp || inp.isEmpty then matchItems fuel rest prev inp caps k else none
    | .group n items =>
      matchItems fuel items prev inp caps fun prev2 inp2 caps2 =>
        let consumed := (prev2.take (prev2.length - prev.length)).reverse
        matchItems fuel rest prev2 inp2 ((n, consumed) :: caps2) k

/-- Leftmost match: try each start position from the left;
`FindStringSubmatch` returns the captures of the first position that
matches. -/
def findSubmatch (items : List RItem) : List Char → List Char → Option Caps
  | prev, inp =>
    match matchItems 1000 items prev inp [] (fun _ _ caps => some caps) with
    | some caps => some caps
    | none =>
      match inp with
      | [] => none
      | c :: cs => findSubmatch items (c :: prev) cs

def capLookup (caps : Caps) (n : Nat) : Option (List Char) :=
  (caps.find? (fun c => c.1 == n)).map (·.2)

def isDigitChar (c : Char) : Bool := c.isDigit

def isDigitOrComma (c : Char) : Bool := c.isDigit || c == ','

/-- RE2 `\s` is `[\t\n\f\r ]`. -/
def isRE2Space (c : Char) : Bool :=
  c == '\t' || c == '\n' || c == '\x0c' || c == '\r' || c == ' '

def isKMGTP (c : Char) : Bool :=
  c.toLower == 'k' || c.toLower == 'm' || c.toLower == 'g' ||
  c.toLower == 't' || c.toLower == 'p'

/-- `(?i)\bOK\s*size:\s*([0-9][0-9,]*)(?:\b|$)` (reOKSize, line 215). -/
def reOKSizeItems : List RItem :=
  [.wb, .lit ['o', 'k'], .star isRE2Space, .lit ['s', 'i', 'z', 'e', ':'],
   .star isRE2Space, .group 1 [.cls isDigitChar, .star isDigitOrComma], .wbOrEol]

/-- `(?i)\bProgress:\s*([0-9]+(?:\.[0-9]+)?)\s*%` (reProgress, line 216). -/
def reProgressItems : List RItem :=
  [.wb, .lit ['p', 'r', 'o', 'g', 'r', 'e', 's', 's', ':'], .star isRE2Space,
   .group 1 [.cls isDigitChar, .star isDigitChar,
             .opt [.lit ['.'], .cls isDigitChar, .star isDigitChar]],
   .star isRE2Space, .lit ['%']]

/-- `(?i)\bSpeed:\s*([0-9]+(?:\.[0-9]+)?)\s*([kmgtp]?)(?:i)?b/s`
(reSpeedUnit, line 217). -/
def reSpeedUnitItems : List RItem :=
  [.wb, .lit ['s', 'p', 'e', 'e', 'd', ':'], .star isRE2Space,
   .group 1 [.cls isDigitChar, .star isDigitChar,
             .opt [.lit ['.'], .cls isDigitChar, .star isDigitChar]],
   .star isRE2Space, .group 2 [.opt [.cls isKMGTP]], .opt [.lit ['i']],
   .lit ['b', '/', 's']]

/-! ## Numeric parsing

`Rat.mul`, `Rat.add`, `Rat.div` are `@[irreducible]`, which blocks `decide`
on concrete runs of the parser. The embedding therefore computes with the
reducible constructor `Rat.divInt`; `qmul_eq`, `qadd_eq`, `qdiv_eq` prove
these helpers equal to the ordinary field operations, so nothing is changed
semantically. -/

def qmul (a b : ℚ) : ℚ := Rat.divInt (a.num * b.num) ((a.den : Int) * (b.den : Int))

def qadd (a b : ℚ) : ℚ :=
  Rat.divInt (a.num * (b.den : Int) + b.num * (a.den : Int)) ((a.den : Int) * (b.den : Int))

def qdiv (a b : ℚ) : ℚ := Rat.divInt (a.num * (b.den : Int)) ((a.den : Int) * b.num)

theorem qmul_eq (a b : ℚ) : qmul a b = a * b := by
  rw [qmul, ← Rat.divInt_mul_divInt' a.num (a.den : Int) b.num (b.den : Int),
    Rat.num_divInt_den, Rat.num_divInt_den]

theorem qadd_eq (a b : ℚ) : qadd a b = a + b := by
  rw [qadd, ← Rat.divInt_add_divInt a.num b.num (by exact_mod_cast a.den_nz)
    (by exact_mod_cast b.den_nz), Rat.num_divInt_den, Rat.num_divInt_den]

theorem qdiv_eq (a b : ℚ) : qdiv a b = a / b := by
  rw [qdiv, ← Rat.div_def']

def digitVal (c : Char) : Nat := c.toNat - '0'.toNat

def natOfDigits (l : List Char) : Nat :=
  l.foldl (fun a c => a * 10 + digitVal c) 0

/-- `strconv.ParseInt(s, 10, 64)`: optional sign, all digits, 64-bit range
check (out-of-range input is an error, hence `none`). -/
def parseInt64 (s : List Char) : Option Int :=
  let signed : Bool × List Char :=
    match s with
    | '+' :: ds => (false, ds)
    | '-' :: ds => (true, ds)
    | ds => (false, ds)
  let neg := signed.1
  let ds := signed.2
  if ds = [] then none
  else if ds.all isDigitChar then
    let v : Nat := natOfDigits ds
    if neg then
      if v ≤ 2 ^ 63 then some (-(v : Int)) else none
    else
      if v ≤ 2 ^ 63 - 1 then some (v : Int) else none
  else none

/-- `parseCommaInt64` (lines 225-229): drop commas, then `ParseInt`. -/
def parseCommaInt64 (s : List Char) : Option Int :=
  parseInt64 (s.filter (fun c => c ≠ ','))

/-- `strconv.ParseFloat` restricted to the decimal shape
`[0-9]+(\.[0-9]+)?` produced by the capture groups, with exact rational
semantics standing in for `float64` (every value exercised by the spec is
exactly representable, so the two agree there). -/
def parseDecimal (s : List Char) : Option ℚ :=
  let ip := s.takeWhile isDigitChar
  let rest := s.dropWhile isDigitChar
  if ip = [] then none
  else
    match rest with
    | [] => some (Rat.divInt (natOfDigits ip) 1)
    | '.' :: fp =>
      if fp ≠ [] ∧ fp.all isDigitChar then
        some (qadd (Rat.divInt (natOfDigits ip) 1)
          (Rat.divInt (natOfDigits fp) (10 ^ fp.length : Nat)))
      else none
    | _ => none

/-- `speedToBps` (lines 231-246): base-1024 multipliers keyed by the
upper-cased unit letter captured before `B/s`. -/
def speedToBps (value : ℚ) (unitPrefixChars : List Char) : ℚ :=
  match unitPrefixChars.map Char.toUpper with
  | ['K'] => qmul value 1024
  | ['M'] => qmul (qmul value 1024) 1024
  | ['G'] => qmul (qmul (qmul value 1024) 1024) 1024
  | ['T'] => qmul (qmul (qmul (qmul value 1024) 1024) 1024) 1024
  | ['P'] => qmul (qmul (qmul (qmul (qmul value 1024) 1024) 1024) 1024) 1024
  | _ => value

/-! ## Progress line parsing (parseProgressSegment, lines 248-284) -/

structure parsedProgress where
  doneBytes : Int := 0
  speedBps : ℚ := 0
  percent : ℚ := 0
  hasDone : Bool := false
  hasSpeed : Bool := false
  hasPercent : Bool := false
deriving DecidableEq, Repr

/-- `strings.TrimPrefix(clean, "\r")` on a character list. -/
def trimPrefixCRL : List Char → List Char
  | '\r' :: rest => rest
  | l => l

/-- The cleaned form of a segment (line 258-259): strip ANSI escapes, trim
whitespace, drop one leading CR. -/
def cleanSegment (seg : List Char) : List Char :=
  trimPrefixCRL (trimSpaceL (stripANSIList seg))

/-- `parseProgressSegment` (lines 257-284): the three extractions are
independent; each has-flag is set only when its pattern matches and the
captured number parses. -/
def parseProgressSegment (seg : List Char) : parsedProgress :=
  let clean := cleanSegment seg
  let p0 : parsedProgress := {}
  let p1 :=
    match findSubmatch reOKSizeItems [] clean with
    | some caps =>
      match capLookup caps 1 with
      | some g =>
        match parseCommaInt64 g with
        | some v => { p0 with doneBytes := v, hasDone := true }
        | none => p0
      | none => p0
    | none => p0
  let p2 :=
    match findSubmatch reProgressItems [] clean with
    | some caps =>
      match capLookup caps 1 with
      | some g =>
        match parseDecimal g with
        | some v => { p1 with percent := v, hasPercent := true }
        | none => p1
      | none => p1
    | none => p1
  match findSubmatch reSpeedUnitItems [] clean with
  | some caps =>
    match capLookup caps 1, capLookup caps 2 with
    | some g1, some g2 =>
      match parseDecimal g1 with
      | some v => { p2 with speedBps := speedToBps v g2, hasSpeed := true }
      | none => p2
    | _, _ => p2
  | none => p2

/-! ## Per-job progress aggregation
(runOssutilWithProgress, src/unnamed/part_000 lines 480-564) -/

/-- Aggregation state of one job: `totalBytes` from the record (never
written by the loop), `doneBytes`/`speedBps` the accumulation variables of
lines 485-486. -/
structure JobAgg where
  totalBytes : Int
  doneBytes : Int
  speedBps : ℚ
deriving DecidableEq, Repr

/-- Go conversion `int64(f)` of a (rational-modelled) `float64`: truncation
toward zero. -/
def intTrunc (q : ℚ) : Int := Int.tdiv q.num (q.den : Int)

/-- The `doneBytes` effect of one iteration of the segment loop
(lines 534-538): an absolute byte count wins; otherwise a percentage with a
known positive total derives `doneBytes = int64(float64(total)*(pct/100))`;
otherwise `doneBytes` is untouched. -/
def stepDoneBytes (total done : Int) (p : parsedProgress) : Int :=
  if p.hasDone then p.doneBytes
  else if p.hasPercent ∧ total > 0 then
    intTrunc (qmul (Rat.divInt total 1) (qdiv p.percent 100))
  else done

/-- One iteration of the segment loop (lines 533-542): the `doneBytes`
update, then `speedBps` overwritten whenever the line carried a speed. -/
def jobStep (st : JobAgg) (p : parsedProgress) : JobAgg :=
  let st1 := { st with doneBytes := stepDoneBytes st.totalBytes st.doneBytes p }
  if p.hasSpeed then { st1 with speedBps := p.speedBps } else st1

def jobRunParsed (st : JobAgg) (ps : List parsedProgress) : JobAgg :=
  ps.foldl jobStep st

/-- The segment loop over raw output segments: each segment is
ANSI-stripped (line 530) and parsed, then folded through `jobStep`. -/
def jobRun (st : JobAgg) (segs : List (List Char)) : JobAgg :=
  jobRunParsed st (segs.map fun seg => parseProgressSegment (stripANSIList seg))

/-- The ETA computation of the `emit` closure (lines 496-502). -/
def etaSeconds (st : JobAgg) : Int :=
  if st.totalBytes > 0 ∧ st.speedBps > 0 ∧ st.doneBytes ≥ 0
      ∧ st.doneBytes ≤ st.totalBytes then
    intTrunc (qdiv (Rat.divInt (st.totalBytes - st.doneBytes) 1) st.speedBps)
  else 0

/-- A run of parsed lines is tame for a fixed `total` when each line's
derived `doneBytes` value lies between the current `doneBytes` and `total`. -/
def tameProgressRun (total : Int) : Int → List parsedProgress → Bool
  | _, [] => true
  | d, p :: ps =>
    let d2 := stepDoneBytes total d p
    (d ≤ d2 && d2 ≤ total) && tameProgressRun total d2 ps

theorem jobStep_doneBytes (st : JobAgg) (p : parsedProgress) :
    (jobStep st p).doneBytes = stepDoneBytes st.totalBytes st.doneBytes p := by
  simp only [jobStep]
  split <;> rfl

theorem jobStep_totalBytes (st : JobAgg) (p : parsedProgress) :
    (jobStep st p).totalBytes = st.totalBytes := by
  simp only [jobStep]
  split <;> rfl

/-- C4: the parser maps the spec's example lines to the documented fields:
`"OK size: 1,048,576"` to `doneBytes = 1048576` with `hasDone`;
`"Progress: 45.5%"` to `percent = 45.5` with `hasPercent`;
`"Speed: 2.50MB/s"` to `speedBps = 2.5 * 1024 * 1024` with `hasSpeed`;
the speed multipliers are base-1024 (`K = 2^10` through `P = 2^50`, empty
prefix = bytes/sec); and a line on which none of the three patterns matches
leaves all three has-flags false (the parsed record is the zero record). -/
theorem parseProgressSegment_spec_examples :
    (parseProgressSegment "OK size: 1,048,576".toList).doneBytes = 1048576
  ∧ (parseProgressSegment "OK size: 1,048,576".toList).hasDone = true
  ∧ (parseProgressSegment "Progress: 45.5%".toList).percent = 91 / 2
  ∧ (parseProgressSegment "Progress: 45.5%".toList).hasPercent = true
  ∧ (parseProgressSegment "Speed: 2.50MB/s".toList).speedBps = 5 / 2 * 1024 * 1024
  ∧ (parseProgressSegment "Speed: 2.50MB/s".toList).hasSpeed = true
  ∧ (∀ v : ℚ, speedToBps v ['K'] = v * 2 ^ 10 ∧ speedToBps v ['M'] = v * 2 ^ 20
      ∧ speedToBps v ['G'] = v * 2 ^ 30 ∧ speedToBps v ['T'] = v * 2 ^ 40
      ∧ speedToBps v ['P'] = v * 2 ^ 50 ∧ speedToBps v [] = v)
  ∧ (∀ s : List Char,
      findSubmatch reOKSizeItems [] (cleanSegment s) = none →
      findSubmatch reProgressItems [] (cleanSegment s) = none →
      findSubmatch reSpeedUnitItems [] (cleanSegment s) = none →
      parseProgressSegment s = {}) := by
  refine ⟨by decide, by decide, ?_, by decide, ?_, by decide, ?_, ?_⟩
  · have h1 : (parseProgressSegment "Progress: 45.5%".toList).percent = mkRat 91 2 := by
      decide
    have h2 : (mkRat 91 2 : ℚ) = 91 / 2 := by
      rw [Rat.mkRat_eq_divInt, Rat.divInt_eq_div]
      norm_num
    exact h1.trans h2
  · have h1 : (parseProgressSegment "Speed: 2.50MB/s".toList).speedBps = 2621440 := by
      decide
    have h2 : (2621440 : ℚ) = 5 / 2 * 1024 * 1024 := by norm_num
    exact h1.trans h2
  · intro v
    refine ⟨?_, ?_, ?_, ?_, ?_, rfl⟩
    · show qmul v 1024 = v * 2 ^ 10
      rw [qmul_eq]
      norm_num
    · show qmul (qmul v 1024) 1024 = v * 2 ^ 20
      rw [qmul_eq, qmul_eq, mul_assoc]
      norm_num
    · show qmul (qmul (qmul v 1024) 1024) 1024 = v * 2 ^ 30
      rw [qmul_eq, qmul_eq, qmul_eq, mul_assoc, mul_assoc]
      norm_num
    · show qmul (qmul (qmul (qmul v 1024) 1024) 1024) 1024 = v * 2 ^ 40
      rw [qmul_eq, qmul_eq, qmul_eq, qmul_eq, mul_assoc, mul_assoc, mul_assoc]
      norm_num
    · show qmul (qmul (qmul (qmul (qmul v 1024) 1024) 1024) 1024) 1024 = v * 2 ^ 50
      rw [qmul_eq, qmul_eq, qmul_eq, qmul_eq, qmul_eq,
        mul_assoc, mul_assoc, mul_assoc, mul_assoc]
      norm_num
  · intro s h1 h2 h3
    simp only [parseProgressSegment, h1, h2, h3]

theorem parseProgressSegment_spec_examples_witness :
    findSubmatch reOKSizeItems [] (cleanSegment "uploading foo.txt".toList) = none
  ∧ parseProgressSegment "uploading foo.txt".toList = {} :=
  ⟨by decide,
   parseProgressSegment_spec_examples.2.2.2.2.2.2.2 "uploading foo.txt".toList
     (by decide) (by decide) (by decide)⟩

/-- C10: the speed pattern tolerates an optional `i` between the unit
letter and `B/s`, case-insensitively: `"Speed: 2.5KiB/s"` parses with
`hasSpeed` and the same base-1024 multiplier as `"Speed: 2.5KB/s"`
(both 2.5 * 1024 bytes/sec), and an all-lowercase variant parses
identically. -/
theorem speed_pattern_accepts_optional_i :
    (parseProgressSegment "Speed: 2.5KiB/s".toList).hasSpeed = true
  ∧ (parseProgressSegment "Speed: 2.5KB/s".toList).hasSpeed = true
  ∧ (parseProgressSegment "Speed: 2.5KiB/s".toList).speedBps
      = (parseProgressSegment "Speed: 2.5KB/s".toList).speedBps
  ∧ (parseProgressSegment "speed: 2.5kib/s".toList).speedBps
      = (parseProgressSegment "Speed: 2.5KiB/s".toList).speedBps
  ∧ (parseProgressSegment "Speed: 2.5KiB/s".toList).speedBps = 5 / 2 * 1024 := by
  refine ⟨by decide, by decide, by decide, by decide, ?_⟩
  have h1 : (parseProgressSegment "Speed: 2.5KiB/s".toList).speedBps = 2560 := by decide
  have h2 : (2560 : ℚ) = 5 / 2 * 1024 := by norm_num
  exact h1.trans h2

/-- C2 (counterexample): `doneBytes` is not monotone and not bounded by
`totalBytes` on all runs: the loop assigns whatever the line reports, so a
second line `OK size: 5` after `OK size: 10` lowers `doneBytes` from 10 to
5, and a line `OK size: 2000` in a job with `totalBytes = 1000` drives
`doneBytes` past the total. -/
theorem doneBytes_not_monotone :
    (jobRun { totalBytes := 1000, doneBytes := 0, speedBps := 0 }
      ["OK size: 10".toList]).doneBytes = 10
  ∧ (jobRun { totalBytes := 1000, doneBytes := 0, speedBps := 0 }
      ["OK size: 10".toList, "OK size: 5".toList]).doneBytes = 5
  ∧ ¬ ((jobRun { totalBytes := 1000, doneBytes := 0, speedBps := 0 }
      ["OK size: 10".toList]).doneBytes
      ≤ (jobRun { totalBytes := 1000, doneBytes := 0, speedBps := 0 }
      ["OK size: 10".toList, "OK size: 5".toList]).doneBytes)
  ∧ ¬ ((jobRun { totalBytes := 1000, doneBytes := 0, speedBps := 0 }
      ["OK size: 2000".toList]).doneBytes
      ≤ (jobRun { totalBytes := 1000, doneBytes := 0, speedBps := 0 }
      ["OK size: 2000".toList]).totalBytes) := by
  refine ⟨by decide, by decide, by decide, by decide⟩

/-- C2 (amended): `doneBytes` after each loop iteration equals the value
derived from that line (`stepDoneBytes`); consequently, on every run of
parsed lines that is tame — each line's derived value lies between the
current `doneBytes` and `totalBytes` — `doneBytes` is monotonically
non-decreasing and bounded by `totalBytes`, but a line reporting a smaller
or over-total value breaks the claimed invariant (see the counterexample). -/
theorem doneBytes_monotone_of_tame (st : JobAgg) (ps : List parsedProgress)
    (h0 : 0 ≤ st.doneBytes) (hT : st.doneBytes ≤ st.totalBytes)
    (h : tameProgressRun st.totalBytes st.doneBytes ps = true) :
    st.doneBytes ≤ (jobRunParsed st ps).doneBytes
  ∧ (jobRunParsed st ps).doneBytes ≤ st.totalBytes := by
  induction ps generalizing st with
  | nil => exact ⟨le_refl _, hT⟩
  | cons p ps ih =>
    simp only [tameProgressRun, Bool.and_eq_true, decide_eq_true_eq] at h
    obtain ⟨⟨hle, hub⟩, htail⟩ := h
    have hd := jobStep_doneBytes st p
    have ht := jobStep_totalBytes st p
    have hrun : jobRunParsed st (p :: ps) = jobRunParsed (jobStep st p) ps := by
      simp only [jobRunParsed, List.foldl_cons]
    rw [hrun]
    have key := ih (jobStep st p) (by rw [hd]; exact le_trans h0 hle)
      (by rw [hd, ht]; exact hub) (by rw [hd, ht]; exact htail)
    rw [hd, ht] at key
    exact ⟨le_trans hle key.1, key.2⟩

theorem doneBytes_monotone_of_tame_witness :
    0 ≤ (0 : Int) ∧ (0 : Int) ≤ 1000
  ∧ tameProgressRun 1000 0
      [{ doneBytes := 200, hasDone := true }, { doneBytes := 800, hasDone := true }] = true
  ∧ (0 ≤ (jobRunParsed { totalBytes := 1000, doneBytes := 0, speedBps := 0 }
        [{ doneBytes := 200, hasDone := true }, { doneBytes := 800, hasDone := true }]).doneBytes
    ∧ (jobRunParsed { totalBytes := 1000, doneBytes := 0, speedBps := 0 }
        [{ doneBytes := 200, hasDone := true }, { doneBytes := 800, hasDone := true }]).doneBytes
        ≤ 1000) :=
  ⟨by decide, by decide, by decide,
   doneBytes_monotone_of_tame { totalBytes := 1000, doneBytes := 0, speedBps := 0 }
     [{ doneBytes := 200, hasDone := true }, { doneBytes := 800, hasDone := true }]
     (by decide) (by decide) (by decide)⟩

/-- C7: in each emitted snapshot, `etaSeconds` is the integer truncation of
`(totalBytes - doneBytes) / speedBytesPerSec` when `totalBytes > 0`,
`speedBytesPerSec > 0` and `0 ≤ doneBytes ≤ totalBytes`, and `0` otherwise;
and the spec's scenario — `totalBytes = 1000`, parsed `doneBytes` 200 then
800, `speedBytesPerSec = 100` — yields `etaSeconds = 2` after the second
update. -/
theorem etaSeconds_claim :
    (∀ st : JobAgg,
      (st.totalBytes > 0 ∧ st.speedBps > 0 ∧ st.doneBytes ≥ 0
          ∧ st.doneBytes ≤ st.totalBytes →
        etaSeconds st = intTrunc (((st.totalBytes - st.doneBytes : Int) : ℚ) / st.speedBps))
      ∧ (¬ (st.totalBytes > 0 ∧ st.speedBps > 0 ∧ st.doneBytes ≥ 0
          ∧ st.doneBytes ≤ st.totalBytes) →
        etaSeconds st = 0))
  ∧ jobRun { totalBytes := 1000, doneBytes := 0, speedBps := 0 }
      ["OK size: 200 Speed: 100B/s".toList, "OK size: 800".toList]
      = { totalBytes := 1000, doneBytes := 800, speedBps := 100 }
  ∧ etaSeconds (jobRun { totalBytes := 1000, doneBytes := 0, speedBps := 0 }
      ["OK size: 200 Speed: 100B/s".toList, "OK size: 800".toList]) = 2 := by
  refine ⟨?_, by decide, by decide⟩
  intro st
  constructor
  · intro hcond
    rw [etaSeconds, if_pos hcond, qdiv_eq, Rat.divInt_one]
  · intro hcond
    rw [etaSeconds, if_neg hcond]

theorem etaSeconds_claim_witness :
    etaSeconds { totalBytes := 1000, doneBytes := 800, speedBps := 100 }
      = intTrunc (((1000 - 800 : Int) : ℚ) / 100) :=
  (etaSeconds_claim.1 { totalBytes := 1000, doneBytes := 800, speedBps := 100 }).1
    (by refine ⟨by decide, by decide, by decide, by decide⟩)

/-! ## Output line splitter (splitOnCRLF, src/unnamed/part_000 lines 286-319)

The reader loop appends each read chunk to `pending`, repeatedly cuts
`pending` at the first CR or LF (`bytes.IndexAny`), emits every complete
segment trimmed when non-empty, and at EOF flushes the trimmed remainder.
We model the stream as the list of its read chunks (a positive-length read
per element; EOF after the last). -/

def isCRLF (c : Char) : Bool := c == '\r' || c == '\n'

def notCRLF (c : Char) : Bool := !isCRLF c

/-- Emit policy for one segment: trim, drop if the result is empty. -/
def emitTrim (seg : List Char) : Option (List Char) :=
  let t := trimSpaceL seg
  if t = [] then none else some t

/-- The inner loop of lines 293-304: cut `pending` at each CR/LF, in order,
returning the emitted segments and the remainder after the last CR/LF. -/
def drainPending (pending : List Char) : List (List Char) × List Char :=
  match _h : pending.dropWhile notCRLF with
  | [] => ([], pending)
  | _ :: tail =>
    let out := drainPending tail
    ((emitTrim (pending.takeWhile notCRLF)).toList ++ out.1, out.2)
termination_by pending.length
decreasing_by
  have hlen := congrArg List.length (List.takeWhile_append_dropWhile notCRLF pending)
  rw [_h] at hlen
  simp only [List.length_append, List.length_cons] at hlen
  omega

/-- The read loop of `splitOnCRLF`: per chunk, append to `pending` and
drain; at EOF (end of the chunk list) flush the trimmed remainder. -/
def splitChunksAux (pending : List Char) : List (List Char) → List (List Char)
  | [] => (emitTrim pending).toList
  | c :: cs =>
    let out := drainPending (pending ++ c)
    out.1 ++ splitChunksAux out.2 cs

def splitOnCRLF (chunks : List (List Char)) : List (List Char) :=
  splitChunksAux [] chunks

/-- Modelled on the spec's words for C5 (refinement target, independent of
chunking): the stream's bytes are cut at each occurrence of CR or LF, each
segment is whitespace-trimmed, empty segments are discarded, and the
trailing partial segment after the last CR/LF is included (the EOF flush). -/
def specLines (s : List Char) : List (List Char) :=
  match _h : s.dropWhile notCRLF with
  | [] => (emitTrim s).toList
  | _ :: tail => (emitTrim (s.takeWhile notCRLF)).toList ++ specLines tail
termination_by s.length
decreasing_by
  have hlen := congrArg List.length (List.takeWhile_append_dropWhile notCRLF s)
  rw [_h] at hlen
  simp only [List.length_append, List.length_cons] at hlen
  omega

theorem all_notCRLF_of_dropWhile_nil :
    ∀ {l : List Char}, l.dropWhile notCRLF = [] → ∀ c ∈ l, notCRLF c = true := by
  intro l
  induction l with
  | nil => intro _ c hc; cases hc
  | cons x xs ih =>
    intro h c hc
    rw [List.dropWhile_cons] at h
    by_cases hx : notCRLF x
    · rw [if_pos hx] at h
      rcases hc with _ | hc
      · exact hx
      · exact ih h c (by assumption)
    · rw [if_neg hx] at h
      cases h

theorem drainPending_snd_all (s : List Char) :
    ∀ c ∈ (drainPending s).2, notCRLF c = true := by
  induction s using drainPending.induct with
  | case1 s h =>
    rw [drainPending]
    split
    · exact all_notCRLF_of_dropWhile_nil h
    · rename_i heq
      rw [h] at heq
      cases heq
  | case2 s x tail h ih =>
    rw [drainPending]
    split
    · rename_i heq
      rw [h] at heq
      cases heq
    · rename_i y tail2 heq
      rw [h] at heq
      cases heq
      exact ih

theorem drainPending_eq_nil (s : List Char) (h : s.dropWhile notCRLF = []) :
    drainPending s = ([], s) := by
  rw [drainPending]
  split
  · rfl
  · rename_i heq
    rw [h] at heq
    cases heq

theorem drainPending_eq_cons (s : List Char) (a : Char) (tail : List Char)
    (h : s.dropWhile notCRLF = a :: tail) :
    drainPending s = ((emitTrim (s.takeWhile notCRLF)).toList ++ (drainPending tail).1,
      (drainPending tail).2) := by
  rw [drainPending]
  split
  · rename_i heq
    rw [h] at heq
    cases heq
  · rename_i b tail2 heq
    rw [h] at heq
    cases heq
    rfl

theorem specLines_eq_nil (s : List Char) (h : s.dropWhile notCRLF = []) :
    specLines s = (emitTrim s).toList := by
  rw [specLines]
  split
  · rfl
  · rename_i heq
    rw [h] at heq
    cases heq

theorem specLines_eq_cons (s : List Char) (a : Char) (tail : List Char)
    (h : s.dropWhile notCRLF = a :: tail) :
    specLines s = (emitTrim (s.takeWhile notCRLF)).toList ++ specLines tail := by
  rw [specLines]
  split
  · rename_i heq
    rw [h] at heq
    cases heq
  · rename_i b tail2 heq
    rw [h] at heq
    cases heq
    rfl

theorem specLines_append (y : List Char) : ∀ x : List Char,
    specLines (x ++ y) = (drainPending x).1 ++ specLines ((drainPending x).2 ++ y) := by
  intro x
  induction x using specLines.induct with
  | case1 x hx =>
    rw [drainPending_eq_nil x hx]
    simp
  | case2 x s tail hx ih =>
    have hsep : ¬ notCRLF s = true := by
      have hh := List.head?_dropWhile_not notCRLF x
      rw [hx] at hh
      simpa using hh
    have hall : ∀ a ∈ x.takeWhile notCRLF, notCRLF a := fun a ha =>
      List.mem_takeWhile_imp ha
    have hx_decomp : x = x.takeWhile notCRLF ++ s :: tail := by
      conv_lhs => rw [← List.takeWhile_append_dropWhile notCRLF x]
      rw [hx]
    have hdw : (x ++ y).dropWhile notCRLF = s :: (tail ++ y) := by
      conv_lhs => rw [hx_decomp]
      rw [List.append_assoc, List.cons_append,
        List.dropWhile_append_of_pos hall, List.dropWhile_cons_of_neg hsep]
    have htw : (x ++ y).takeWhile notCRLF = x.takeWhile notCRLF := by
      conv_lhs => rw [hx_decomp]
      rw [List.append_assoc, List.cons_append,
        List.takeWhile_append_of_pos hall, List.takeWhile_cons_of_neg hsep]
      simp
    rw [specLines_eq_cons (x ++ y) s (tail ++ y) hdw, htw,
      drainPending_eq_cons x s tail hx, ih]
    simp [List.append_assoc]

theorem dropWhile_eq_nil_of_all {p : Char → Bool} :
    ∀ {l : List Char}, (∀ c ∈ l, p c = true) → l.dropWhile p = [] := by
  intro l
  induction l with
  | nil => intro _; rfl
  | cons x xs ih =>
    intro h
    rw [List.dropWhile_cons, if_pos (h x (by simp))]
    exact ih fun c hc => h c (by simp [hc])

theorem splitChunksAux_eq_specLines : ∀ (chunks : List (List Char)) (pending : List Char),
    (∀ c ∈ pending, notCRLF c = true) →
    splitChunksAux pending chunks = specLines (pending ++ chunks.flatten) := by
  intro chunks
  induction chunks with
  | nil =>
    intro pending hp
    rw [List.flatten_nil, List.append_nil,
      specLines_eq_nil pending (dropWhile_eq_nil_of_all hp)]
    rfl
  | cons c cs ih =>
    intro pending hp
    show (drainPending (pending ++ c)).1
        ++ splitChunksAux (drainPending (pending ++ c)).2 cs = _
    rw [ih (drainPending (pending ++ c)).2 (drainPending_snd_all (pending ++ c)),
      ← specLines_append cs.flatten (pending ++ c)]
    rw [List.flatten_cons, ← List.append_assoc]

/-- C5: for every byte stream and every partition of it into read chunks,
`splitOnCRLF` emits exactly the stream's non-empty whitespace-trimmed
segments, in order, cut at each occurrence of CR or LF, with the trailing
partial line flushed at EOF (`specLines` of the concatenated stream) — so
any two partitions of the same stream yield the same emitted sequence; in
particular a line arriving split across three chunks is emitted exactly
once. -/
theorem splitOnCRLF_chunk_invariant :
    (∀ chunks : List (List Char), splitOnCRLF chunks = specLines chunks.flatten)
  ∧ (∀ p1 p2 : List (List Char), p1.flatten = p2.flatten →
      splitOnCRLF p1 = splitOnCRLF p2)
  ∧ splitOnCRLF ["ab".toList, "cd".toList, "ef\ntail".toList]
      = ["abcdef".toList, "tail".toList] := by
  have key : ∀ chunks : List (List Char), splitOnCRLF chunks = specLines chunks.flatten := by
    intro chunks
    have h := splitChunksAux_eq_specLines chunks [] (by intro c hc; cases hc)
    simpa [splitOnCRLF] using h
  refine ⟨key, ?_, ?_⟩
  · intro p1 p2 h
    rw [key p1, key p2, h]
  · have hf : (["ab".toList, "cd".toList, "ef\ntail".toList] : List (List Char)).flatten
        = "abcdef\ntail".toList := by decide
    rw [key _, hf, specLines_eq_cons "abcdef\ntail".toList '\n' "tail".toList (by decide),
      specLines_eq_nil "tail".toList (by decide)]
    decide

theorem splitOnCRLF_chunk_invariant_witness :
    splitOnCRLF ["a\nb".toList] = splitOnCRLF ["a\n".toList, "b".toList] :=
  splitOnCRLF_chunk_invariant.2.1 ["a\nb".toList] ["a\n".toList, "b".toList] (by decide)

/-! ## Idempotence of TrimSpace (needed for the fallback-promotion claim) -/

theorem dropWhile_dropWhile (p : Char → Bool) (l : List Char) :
    (l.dropWhile p).dropWhile p = l.dropWhile p := by
  induction l with
  | nil => rfl
  | cons x xs ih =>
    rw [List.dropWhile_cons]
    by_cases hx : p x
    · rw [if_pos hx]
      exact ih
    · rw [if_neg hx, List.dropWhile_cons, if_neg hx]

theorem dropWhile_eq_self_of_head (p : Char → Bool) (l : List Char)
    (h : ∀ c, l.head? = some c → p c = false) : l.dropWhile p = l := by
  cases l with
  | nil => rfl
  | cons x xs =>
    rw [List.dropWhile_cons, if_neg]
    simp [h x rfl]

/-- Trimming from the right only. -/
def trimRightL (l : List Char) : List Char :=
  ((l.reverse).dropWhile isGoSpace).reverse

theorem trimSpaceL_eq (l : List Char) :
    trimSpaceL l = trimRightL (l.dropWhile isGoSpace) := rfl

theorem trimRightL_idem (l : List Char) : trimRightL (trimRightL l) = trimRightL l := by
  simp only [trimRightL, List.reverse_reverse, dropWhile_dropWhile]

theorem trimRightL_prefix (l : List Char) : trimRightL l <+: l := by
  have h : (l.reverse).dropWhile isGoSpace <:+ l.reverse := List.dropWhile_suffix _
  have h2 := h.reverse
  rwa [List.reverse_reverse] at h2

theorem dropWhile_trimRightL_dropWhile (l : List Char) :
    (trimRightL (l.dropWhile isGoSpace)).dropWhile isGoSpace
      = trimRightL (l.dropWhile isGoSpace) := by
  apply dropWhile_eq_self_of_head
  intro c hc
  obtain ⟨t, ht⟩ := trimRightL_prefix (l.dropWhile isGoSpace)
  have hne : trimRightL (l.dropWhile isGoSpace) ≠ [] := by
    intro hnil
    rw [hnil] at hc
    cases hc
  have hhead : (l.dropWhile isGoSpace).head? = some c := by
    rw [← ht, List.head?_append, hc]
    rfl
  have := List.head?_dropWhile_not isGoSpace l
  rw [hhead] at this
  simpa using this

theorem trimSpaceL_idem (l : List Char) : trimSpaceL (trimSpaceL l) = trimSpaceL l := by
  rw [trimSpaceL_eq, trimSpaceL_eq, dropWhile_trimRightL_dropWhile, trimRightL_idem]

theorem trimS_idem (s : String) : trimS (trimS s) = trimS s := by
  simp only [trimS]
  rw [show ((trimSpaceL s.toList).asString).toList = trimSpaceL s.toList from rfl,
    trimSpaceL_idem]

/-! ## Binary resolution and fallback retry
(runOssutilWithProgress, src/unnamed/part_000 lines 442-478 and 553;
ossutilStartFailed, src/oss_service.go lines 105-118) -/

/-- Error classes observable from starting and awaiting the external
process. `exitError` is `exec.ExitError`: the process started and exited
non-zero (only produced by `Wait`, but classified defensively by
`ossutilStartFailed` as well). -/
inductive GoError where
  | exitError
  | errNotFound
  | errNotExist
  | errPermission
  | otherError
deriving DecidableEq, Repr

/-- `ossutilStartFailed` (oss_service.go lines 105-118): `nil` is not a
failure; an `exec.ExitError` is a real transfer failure (no fallback);
not-found / not-exist / permission-denied are could-not-start failures;
any other error is not retried either. -/
def ossutilStartFailed : Option GoError → Bool
  | none => false
  | some .exitError => false
  | some .errNotFound => true
  | some .errNotExist => true
  | some .errPermission => true
  | some .otherError => false

/-- Primary binary resolution (lines 460-467): trimmed configured path,
else trimmed auto-discovered fallback, else the bare name `ossutil`. -/
def resolvePrimary (ossutilPath defaultOssutilPath : String) : String :=
  let primary := trimS ossutilPath
  let fallback := trimS defaultOssutilPath
  let primary2 := if primary = "" then fallback else primary
  if primary2 = "" then "ossutil" else primary2

structure RunOutcome where
  /-- binaries handed to `startCmd`, in order -/
  attempts : List String
  /-- `s.ossutilPath` when the call returns -/
  ossutilPathAfter : String
  /-- `none` = the transfer succeeded; `some e` = start or wait error -/
  result : Option GoError
deriving DecidableEq, Repr

/-- The start/retry/await structure of `runOssutilWithProgress`
(lines 469-478 and 553): start the primary; retry once with the fallback
exactly when the first error is a could-not-start error and a distinct
non-empty fallback exists; on fallback success remember it as the new
primary. A process that started is awaited (`waitEnv`); its non-zero exit
is returned as the job's failure and never causes another start attempt. -/
def runOssutil (startEnv waitEnv : String → Option GoError)
    (ossutilPath defaultOssutilPath : String) : RunOutcome :=
  let primary := resolvePrimary ossutilPath defaultOssutilPath
  let fallback := trimS defaultOssutilPath
  let err := startEnv primary
  if ossutilStartFailed err = true ∧ fallback ≠ "" ∧ fallback ≠ primary then
    match startEnv fallback with
    | none =>
      { attempts := [primary, fallback], ossutilPathAfter := fallback,
        result := waitEnv fallback }
    | some e2 =>
      { attempts := [primary, fallback], ossutilPathAfter := ossutilPath,
        result := some e2 }
  else
    match err with
    | some e =>
      { attempts := [primary], ossutilPathAfter := ossutilPath, result := some e }
    | none =>
      { attempts := [primary], ossutilPathAfter := ossutilPath,
        result := waitEnv primary }

/-! ## Enqueue validation
(EnqueueUpload lines 136-176, EnqueueDownload lines 178-212) -/

structure FileStat where
  size : Int
  isDir : Bool
deriving DecidableEq, Repr

/-- `path.Base` (and `filepath.Base` on a slash-separated system): drop
trailing slashes, then keep everything after the last remaining slash;
empty input gives `"."`, an all-slash input gives `"/"`. -/
def pathBase (s : String) : String :=
  if s = "" then "."
  else
    let l2 := ((s.toList.reverse).dropWhile (fun c => c == '/')).reverse
    if l2 = [] then "/"
    else (((l2.reverse).takeWhile (fun c => !(c == '/'))).reverse).asString

def endsWithSlash (s : String) : Bool :=
  match s.toList.getLast? with
  | some '/' => true
  | _ => false

structure EnqueuedJob where
  name : String
  key : String
  totalBytes : Int
deriving DecidableEq, Repr

def isError {ε α : Type} : Except ε α → Bool
  | .error _ => true
  | .ok _ => false

/-- `EnqueueUpload` validation and record construction (lines 136-176).
The filesystem is abstracted as a map from path to stat result (`none` =
`os.Stat` returned an error, e.g. no such file). An `Except.error` models
the synchronous error return, before any record is emitted, process
spawned, or id produced. -/
def EnqueueUpload (fs : String → Option FileStat)
    (bucket prefixArg localPath : String) : Except String EnqueuedJob :=
  let lp := trimS localPath
  if lp = "" then .error "local path is empty"
  else if trimS bucket = "" then .error "bucket is empty"
  else
    match fs lp with
    | none => .error "stat local file failed"
    | some st =>
      if st.isDir then .error "upload currently supports files only"
      else
        let fileName := pathBase lp
        let key0 := trimPrefixSlash prefixArg
        let key1 := if key0 ≠ "" ∧ ¬ endsWithSlash key0 = true then key0 ++ "/" else key0
        .ok { name := fileName, key := key1 ++ fileName, totalBytes := st.size }

/-- `EnqueueDownload` validation and record construction (lines 178-212). -/
def EnqueueDownload (bucket object localPath : String) (totalBytes : Int) :
    Except String EnqueuedJob :=
  let lp := trimS localPath
  let obj := trimPrefixSlash (trimS object)
  if lp = "" then .error "local path is empty"
  else if trimS bucket = "" then .error "bucket is empty"
  else if obj = "" then .error "object key is empty"
  else
    let name0 := pathBase obj
    let name := if name0 = "." ∨ name0 = "/" ∨ name0 = "" then obj else name0
    .ok { name := name, key := obj, totalBytes := totalBytes }

/-- C3: (a) `ossutilStartFailed` classifies exactly not-found / not-exist /
permission-denied as could-not-start (never a non-zero exit); (b) when
starting the primary fails with a could-not-start error and a distinct
non-empty fallback exists, exactly one retry with the fallback is made, and
on fallback success the fallback is recorded as `s.ossutilPath`, so a
subsequent job resolves the fallback as its primary; (c) when the primary
start error is not a could-not-start error there is no retry; (d) when the
primary process starts, the only attempt is the primary and the job's
result is its wait outcome — a process that started and exited non-zero
never triggers the fallback retry. -/
theorem fallback_retry_policy (startEnv waitEnv : String → Option GoError)
    (ossutilPath defaultOssutilPath : String) :
    (∀ e : GoError, ossutilStartFailed (some e) = true ↔
      (e = GoError.errNotFound ∨ e = GoError.errNotExist ∨ e = GoError.errPermission))
  ∧ (ossutilStartFailed (startEnv (resolvePrimary ossutilPath defaultOssutilPath)) = true →
      trimS defaultOssutilPath ≠ "" →
      trimS defaultOssutilPath ≠ resolvePrimary ossutilPath defaultOssutilPath →
        (runOssutil startEnv waitEnv ossutilPath defaultOssutilPath).attempts
          = [resolvePrimary ossutilPath defaultOssutilPath, trimS defaultOssutilPath]
      ∧ (startEnv (trimS defaultOssutilPath) = none →
          (runOssutil startEnv waitEnv ossutilPath defaultOssutilPath).ossutilPathAfter
            = trimS defaultOssutilPath
          ∧ resolvePrimary (trimS defaultOssutilPath) defaultOssutilPath
            = trimS defaultOssutilPath))
  ∧ (ossutilStartFailed (startEnv (resolvePrimary ossutilPath defaultOssutilPath)) = false →
      (runOssutil startEnv waitEnv ossutilPath defaultOssutilPath).attempts
        = [resolvePrimary ossutilPath defaultOssutilPath])
  ∧ (startEnv (resolvePrimary ossutilPath defaultOssutilPath) = none →
      (runOssutil startEnv waitEnv ossutilPath defaultOssutilPath).attempts
        = [resolvePrimary ossutilPath defaultOssutilPath]
      ∧ (runOssutil startEnv waitEnv ossutilPath defaultOssutilPath).result
        = waitEnv (resolvePrimary ossutilPath defaultOssutilPath)) := by
  refine ⟨?_, ?_, ?_, ?_⟩
  · intro e
    cases e <;> simp [ossutilStartFailed]
  · intro h1 h2 h3
    simp only [runOssutil]
    split
    · cases hfb : startEnv (trimS defaultOssutilPath) with
      | none =>
        refine ⟨rfl, fun _ => ⟨rfl, ?_⟩⟩
        simp only [resolvePrimary, trimS_idem, if_neg h2]
      | some e2 =>
        exact ⟨rfl, fun hc => absurd hc (by simp)⟩
    · rename_i hcond
      exact absurd ⟨h1, h2, h3⟩ hcond
  · intro h1
    simp only [runOssutil]
    split
    · rename_i hcond
      rw [h1] at hcond
      exact absurd hcond.1 (by simp)
    · cases startEnv (resolvePrimary ossutilPath defaultOssutilPath) <;> rfl
  · intro h1
    simp only [runOssutil]
    split
    · rename_i hcond
      rw [h1] at hcond
      exact absurd hcond.1 (by simp [ossutilStartFailed])
    · rw [h1]
      exact ⟨rfl, rfl⟩

theorem fallback_retry_policy_witness :
    (runOssutil
      (fun b => if b = "/usr/local/bin/ossutil" then some GoError.errNotExist else none)
      (fun _ => none) "/usr/local/bin/ossutil" "/opt/ossutil").attempts
        = ["/usr/local/bin/ossutil", "/opt/ossutil"]
  ∧ (runOssutil
      (fun b => if b = "/usr/local/bin/ossutil" then some GoError.errNotExist else none)
      (fun _ => none) "/usr/local/bin/ossutil" "/opt/ossutil").ossutilPathAfter
        = "/opt/ossutil" := by
  have h := (fallback_retry_policy
    (fun b => if b = "/usr/local/bin/ossutil" then some GoError.errNotExist else none)
    (fun _ => none) "/usr/local/bin/ossutil" "/opt/ossutil").2.1
    (by decide) (by decide) (by decide)
  exact ⟨h.1, (h.2 (by decide)).1⟩

/-- C8: `EnqueueUpload` returns a synchronous error — emitting no record,
spawning no process, returning no id (the `Except.error` branch carries
only the message) — exactly when the trimmed local path is empty, the
trimmed bucket is empty, `os.Stat` fails on the trimmed local path, or the
path names a directory; `EnqueueDownload` errors exactly when the trimmed
local path is empty, the trimmed bucket is empty, or the object key is
empty after trimming whitespace and one leading slash. -/
theorem enqueue_validation :
    (∀ (fs : String → Option FileStat) (bucket prefixArg localPath : String),
      isError (EnqueueUpload fs bucket prefixArg localPath) = true ↔
        (trimS localPath = "" ∨ trimS bucket = ""
          ∨ fs (trimS localPath) = none
          ∨ ∃ st, fs (trimS localPath) = some st ∧ st.isDir = true))
  ∧ (∀ (bucket object localPath : String) (totalBytes : Int),
      isError (EnqueueDownload bucket object localPath totalBytes) = true ↔
        (trimS localPath = "" ∨ trimS bucket = ""
          ∨ trimPrefixSlash (trimS object) = "")) := by
  constructor
  · intro fs bucket prefixArg localPath
    simp only [EnqueueUpload]
    by_cases h1 : trimS localPath = ""
    · simp [h1, isError]
    · rw [if_neg h1]
      by_cases h2 : trimS bucket = ""
      · simp [h1, h2, isError]
      · rw [if_neg h2]
        cases hfs : fs (trimS localPath) with
        | none => simp [h1, h2, hfs, isError]
        | some st =>
          by_cases h3 : st.isDir
          · simp [h1, h2, hfs, h3, isError]
          · simp [h1, h2, hfs, h3, isError]
  · intro bucket object localPath totalBytes
    simp only [EnqueueDownload]
    by_cases h1 : trimS localPath = ""
    · simp [h1, isError]
    · rw [if_neg h1]
      by_cases h2 : trimS bucket = ""
      · simp [h1, h2, isError]
      · rw [if_neg h2]
        by_cases h3 : trimPrefixSlash (trimS object) = ""
        · simp [h1, h2, h3, isError]
        · simp [h1, h2, h3, isError]

theorem enqueue_validation_witness :
    isError (EnqueueUpload (fun _ => none) "bucket" "p" "  ") = true
  ∧ isError (EnqueueDownload "bucket" " / " "/tmp/f" 7) = true :=
  ⟨(enqueue_validation.1 (fun _ => none) "bucket" "p" "  ").mpr (Or.inl (by decide)),
   (enqueue_validation.2 "bucket" " / " "/tmp/f" 7).mpr (Or.inr (Or.inr (by decide)))⟩

end Walioss
